import Mathlib

/-!
# Verification of the `suspect` interval-arithmetic and propagation core

A shallow embedding of `suspect/interval.py`, `suspect/convexity/pow.py` and
`suspect/monotonicity/visitor.py`.  Interval endpoints are extended rationals
(`ERat`); the numeric backend `suspect.math` (not part of the analysed
sources) is modelled from the specification: tolerance-based comparisons take
the tolerance as an explicit parameter, and the directed-rounding primitives
`down`/`up` are explicit endomorphisms of `ℚ` bundled in a `Config`.
-/

namespace Suspect

/-- Extended rational numbers: the value domain of interval endpoints.
Modelled from the spec: interval bounds are "extended reals"; the backend
`suspect.math` is absent from the analysed sources. -/
inductive ERat where
  | negInf : ERat
  | fin : ℚ → ERat
  | posInf : ERat
deriving DecidableEq

namespace ERat

/-- Boolean order on extended rationals. -/
def ble : ERat → ERat → Bool
  | negInf, _ => true
  | _, posInf => true
  | fin a, fin b => decide (a ≤ b)
  | _, _ => false

/-- Boolean strict order on extended rationals. -/
def blt (a b : ERat) : Bool := a.ble b && !(b.ble a)

instance : LinearOrder ERat where
  le a b := a.ble b = true
  lt a b := a.blt b = true
  le_refl a := by cases a <;> simp [ble]
  le_trans a b c hab hbc := by
    cases a <;> cases b <;> cases c <;>
      simp_all [ble, decide_eq_true_eq] <;> exact le_trans hab hbc
  le_antisymm a b hab hba := by
    cases a <;> cases b <;> simp_all [ble, decide_eq_true_eq]
    exact le_antisymm hab hba
  le_total a b := by
    cases a <;> cases b <;> simp [ble, decide_eq_true_eq] <;> exact le_total _ _
  lt_iff_le_not_le a b := by
    simp [blt, Bool.and_eq_true, Bool.not_eq_true']
  decidableLE a b := inferInstanceAs (Decidable (ble a b = true))

instance (a b : ERat) : Decidable (a ≤ b) := LinearOrder.decidableLE a b

instance (a b : ERat) : Decidable (a < b) := LinearOrder.decidableLT a b

/-- Negation of an extended rational. -/
def neg : ERat → ERat
  | negInf => posInf
  | fin a => fin (-a)
  | posInf => negInf

/-- Addition of extended rationals.  Modelled from the spec: the indeterminate
form `(-∞) + (+∞)` never arises from interval endpoints with a concrete member
(it would need an interval `[+∞, +∞]` or `[-∞, -∞]` operand); the model lets
`-∞` absorb. -/
def add : ERat → ERat → ERat
  | negInf, _ => negInf
  | _, negInf => negInf
  | posInf, _ => posInf
  | _, posInf => posInf
  | fin a, fin b => fin (a + b)

/-- Subtraction of extended rationals. -/
def sub (a b : ERat) : ERat := a.add b.neg

/-- Multiplication of extended rationals.  Modelled from the spec: the
indeterminate form `0 · ∞` is taken to be `0`; it never arises from interval
corner products whose factors bound a concrete member. -/
def mul : ERat → ERat → ERat
  | fin a, fin b => fin (a * b)
  | negInf, negInf => posInf
  | negInf, posInf => negInf
  | posInf, negInf => negInf
  | posInf, posInf => posInf
  | negInf, fin b => if 0 < b then negInf else if b < 0 then posInf else fin 0
  | fin a, negInf => if 0 < a then negInf else if a < 0 then posInf else fin 0
  | posInf, fin b => if 0 < b then posInf else if b < 0 then negInf else fin 0
  | fin a, posInf => if 0 < a then posInf else if a < 0 then negInf else fin 0

/-- Reciprocal of an extended rational: `1/±∞ = 0`.  The finite case `1/0` is
only reached in the model on inputs the Python code never produces (division
guards zero-containing intervals first). -/
def inv : ERat → ERat
  | negInf => fin 0
  | posInf => fin 0
  | fin a => fin a⁻¹

/-- Apply a rounding endomorphism of `ℚ` to an extended rational. -/
def round (f : ℚ → ℚ) : ERat → ERat
  | negInf => negInf
  | posInf => posInf
  | fin a => fin (f a)

/-- Tolerance-based equality.  Modelled from the spec: "all comparisons
anywhere in the system (zero tests, sign tests, equality) use tolerance-based
approximate comparison". -/
def almosteq (tol : ℚ) : ERat → ERat → Bool
  | fin a, fin b => decide (|a - b| ≤ tol)
  | a, b => decide (a = b)

/-- Tolerance-based `≤`: true `≤` or within tolerance. -/
def almostlte (tol : ℚ) (a b : ERat) : Bool := a.ble b || a.almosteq tol b

/-- Tolerance-based `≥`. -/
def almostgte (tol : ℚ) (a b : ERat) : Bool := almostlte tol b a

end ERat

/-- Tolerance-based equality on plain rationals (`suspect.math.almosteq`).
Modelled from the spec: tolerance-based approximate comparison. -/
def almosteqQ (tol a b : ℚ) : Bool := decide (|a - b| ≤ tol)

/-- Tolerance-based `≤` on plain rationals (`suspect.math.almostlte`). -/
def almostlteQ (tol a b : ℚ) : Bool := decide (a ≤ b) || almosteqQ tol a b

/-- Python's truncating `int()` conversion on a rational. -/
def truncQ (q : ℚ) : ℤ := if 0 ≤ q then ⌊q⌋ else ⌈q⌉

/-- Python's floating modulo `a % m` (sign follows the divisor). -/
def qmod (a m : ℚ) : ℚ := a - m * ⌊a / m⌋

/-- Rounding mode tag (`suspect.math.RoundMode`). -/
inductive RoundMode where
  | RD : RoundMode
  | RU : RoundMode
deriving DecidableEq

/-- The numeric backend configuration.  Modelled from the spec: `suspect.math`
supplies the comparison tolerance, the directed-rounding primitives `down` and
`up`, the constant `pi` and correctly-rounded transcendental functions; none
of these are part of the analysed sources. -/
structure Config where
  tol : ℚ
  rd : ℚ → ℚ
  ru : ℚ → ℚ
  pi : ℚ
  sinq : ℚ → RoundMode → ℚ
  tanq : ℚ → RoundMode → ℚ

/-- A backend is sound when the tolerance is nonnegative and the rounding
primitives round outward. -/
def Config.Sound (cfg : Config) : Prop :=
  0 ≤ cfg.tol ∧ (∀ q : ℚ, cfg.rd q ≤ q) ∧ (∀ q : ℚ, q ≤ cfg.ru q)

/-- Numerical interval (`suspect.interval.Interval`): a pair of extended
rational endpoints.  The Python constructor's validity check is modelled
separately by `Interval.make`. -/
structure Interval where
  lower : ERat
  upper : ERat
deriving DecidableEq

namespace Interval

/-- `Interval.__init__`: `None` bounds default to `∓∞`; raises `ValueError`
when `lower > upper` (exact comparison in the Python source). -/
def make (lower upper : Option ERat) : Except String Interval :=
  let lower := lower.getD ERat.negInf
  let upper := upper.getD ERat.posInf
  if ERat.blt upper lower then Except.error "lower must be <= upper"
  else Except.ok ⟨lower, upper⟩

/-- `Interval.zero`: the interval `[0, 0]`. -/
def zero : Interval := ⟨ERat.fin 0, ERat.fin 0⟩

/-- `Interval.size`. -/
def size (i : Interval) : ERat :=
  if i.lower = ERat.negInf ∨ i.upper = ERat.posInf then ERat.posInf
  else i.upper.sub i.lower

/-- `Interval.is_zero`. -/
def is_zero (tol : ℚ) (i : Interval) : Bool :=
  i.lower.almosteq tol (ERat.fin 0) && i.upper.almosteq tol (ERat.fin 0)

/-- `Interval.is_nonpositive`. -/
def is_nonpositive (tol : ℚ) (i : Interval) : Bool :=
  ERat.almostlte tol i.upper (ERat.fin 0)

/-- `Interval.is_nonnegative`. -/
def is_nonnegative (tol : ℚ) (i : Interval) : Bool :=
  ERat.almostgte tol i.lower (ERat.fin 0)

/-- `Interval.inverse`: reciprocal with swapped endpoints and outward
rounding. -/
def inverse (cfg : Config) (i : Interval) : Interval :=
  ⟨ERat.round cfg.rd i.upper.inv, ERat.round cfg.ru i.lower.inv⟩

/-- `Interval.__contains__` on a concrete value: tolerance-based endpoint
comparison. -/
def containsQ (tol : ℚ) (i : Interval) (x : ℚ) : Bool :=
  ERat.almostlte tol i.lower (ERat.fin x) && ERat.almostlte tol (ERat.fin x) i.upper

/-- `Interval.__contains__` on an interval. -/
def containsI (tol : ℚ) (i other : Interval) : Bool :=
  ERat.almostlte tol i.lower other.lower && ERat.almostlte tol other.upper i.upper

/-- `Interval.__eq__`: tolerance-based equality of both endpoints. -/
def eq (tol : ℚ) (i other : Interval) : Bool :=
  i.lower.almosteq tol other.lower && i.upper.almosteq tol other.upper

/-- `EmptyInterval`: the sentinel returned by a failed intersection, built by
calling the `Interval` constructor with bounds `(0, 0)`. -/
def emptyInterval : Interval := ⟨ERat.fin 0, ERat.fin 0⟩

/-- `Interval.intersect`. -/
def intersect (i other : Interval) : Interval :=
  let new_lower := max i.lower other.lower
  let new_upper := min i.upper other.upper
  if new_upper < new_lower then emptyInterval
  else ⟨new_lower, new_upper⟩

/-- `Interval.__neg__`. -/
def neg (i : Interval) : Interval := ⟨i.upper.neg, i.lower.neg⟩

/-- `Interval.__add__` on two intervals. -/
def add (cfg : Config) (i other : Interval) : Interval :=
  ⟨ERat.round cfg.rd (i.lower.add other.lower),
   ERat.round cfg.ru (i.upper.add other.upper)⟩

/-- `Interval.__sub__`: addition of the negation. -/
def sub (cfg : Config) (i other : Interval) : Interval :=
  add cfg i other.neg

/-- `Interval.__mul__` on two intervals: within-tolerance zero operands
collapse to the zero interval, otherwise the outward-rounded min/max of the
four corner products. -/
def mul (cfg : Config) (i other : Interval) : Interval :=
  if i.is_zero cfg.tol || other.is_zero cfg.tol then zero
  else
    let sl := i.lower
    let su := i.upper
    let ol := other.lower
    let ou := other.upper
    ⟨ERat.round cfg.rd (min (min (sl.mul ol) (sl.mul ou)) (min (su.mul ol) (su.mul ou))),
     ERat.round cfg.ru (max (max (sl.mul ol) (sl.mul ou)) (max (su.mul ol) (su.mul ou)))⟩

/-- `Interval.__div__` on two intervals: full interval when the divisor
contains zero (tolerance-based), otherwise multiplication by the
reciprocal. -/
def div (cfg : Config) (i other : Interval) : Interval :=
  if containsQ cfg.tol other 0 then ⟨ERat.negInf, ERat.posInf⟩
  else mul cfg i (inverse cfg other)

/-- `Interval._sin`.  Beyond the width guard both endpoints are finite (an
infinite endpoint makes `size` infinite, so the guard already returned); the
final wildcard arm is that unreachable case. -/
def sinI (cfg : Config) (i : Interval) : Interval :=
  if ERat.almostgte cfg.tol i.size (ERat.fin (2 * cfg.pi)) then ⟨ERat.negInf, ERat.posInf⟩
  else
    match i.lower, i.upper with
    | ERat.fin l, ERat.fin u =>
      let lower := qmod l (2 * cfg.pi)
      let upper := lower + (u - l)
      let new_lower := min (cfg.sinq lower RoundMode.RD) (cfg.sinq upper RoundMode.RD)
      let new_upper := max (cfg.sinq lower RoundMode.RU) (cfg.sinq upper RoundMode.RU)
      let new : Interval := ⟨ERat.fin new_lower, ERat.fin new_upper⟩
      let new_upper := if containsQ cfg.tol new ((1/2 : ℚ) * cfg.pi) then 1 else new_upper
      let new_lower := if containsQ cfg.tol new ((3/2 : ℚ) * cfg.pi) then -1 else new_lower
      ⟨ERat.fin new_lower, ERat.fin new_upper⟩
    | _, _ => ⟨ERat.negInf, ERat.posInf⟩

/-- `Interval._tan`.  Same unreachable-wildcard remark as `sinI`. -/
def tanI (cfg : Config) (i : Interval) : Interval :=
  if ERat.almostgte cfg.tol i.size (ERat.fin cfg.pi) then ⟨ERat.negInf, ERat.posInf⟩
  else
    match i.lower, i.upper with
    | ERat.fin l, ERat.fin u =>
      let lower := qmod l cfg.pi
      let upper := lower + (u - l)
      let new_lower := min (cfg.tanq lower RoundMode.RD) (cfg.tanq upper RoundMode.RD)
      let new_upper := max (cfg.tanq lower RoundMode.RU) (cfg.tanq upper RoundMode.RU)
      let nl : Option ℚ := if almosteqQ cfg.tol lower ((1/2 : ℚ) * cfg.pi) then none
        else some new_lower
      let nu : Option ℚ := if almosteqQ cfg.tol upper ((1/2 : ℚ) * cfg.pi) then none
        else some new_upper
      match nl, nu with
      | some a, some b =>
        let new : Interval := ⟨ERat.fin a, ERat.fin b⟩
        if containsQ cfg.tol new ((1/2 : ℚ) * cfg.pi) || containsQ cfg.tol new cfg.pi then
          ⟨ERat.negInf, ERat.posInf⟩
        else ⟨ERat.fin a, ERat.fin b⟩
      | nl, nu =>
        ⟨(nl.map ERat.fin).getD ERat.negInf, (nu.map ERat.fin).getD ERat.posInf⟩
    | _, _ => ⟨ERat.negInf, ERat.posInf⟩

/-- `monotonic_decreasing` applies `functools.wraps` *without* its argument
(compare `monotonic_increasing`, which correctly uses `wraps(func)`).  The
decorated `Interval._acos` is therefore a `functools.partial` of
`update_wrapper` whose required positional argument `wrapper` is missing, so
every call raises `TypeError`.  This definition is the faithful semantics of
calling the decorated function. -/
def monotonicDecreasingApply (_it : Interval) : Except String Interval :=
  Except.error "TypeError: update_wrapper() missing 1 required positional argument: wrapper"

/-- `Interval._acos` / `Interval.acos`: the acos bound computation goes
through the broken `monotonic_decreasing` decorator. -/
def acosI (i : Interval) : Except String Interval :=
  monotonicDecreasingApply i

/-- Mathematical membership of a concrete rational in an interval (the
quantifier domain of the soundness specification). -/
def Mem (x : ℚ) (i : Interval) : Prop :=
  i.lower ≤ ERat.fin x ∧ ERat.fin x ≤ i.upper

instance (x : ℚ) (i : Interval) : Decidable (Mem x i) := by
  unfold Mem
  infer_instance

end Interval

/-- A concrete sound backend used to evaluate the model: zero-width rounding
(exact rational arithmetic), tolerance `2⁻⁴⁸`, a 14-digit rational
approximation of π, and a sine table correctly rounded to five digits at the
sample points used below. -/
def defaultCfg : Config where
  tol := 1 / 2 ^ 48
  rd := id
  ru := id
  pi := 314159265358979 / 100000000000000
  sinq := fun q m =>
    if q = 1 then (match m with | RoundMode.RD => 84147 / 100000 | RoundMode.RU => 84148 / 100000)
    else if q = 2 then (match m with | RoundMode.RD => 90929 / 100000 | RoundMode.RU => 90930 / 100000)
    else 0
  tanq := fun _ _ => 0

/-- Convexity lattice (`suspect.convexity.convexity.Convexity`).  Modelled
from the spec: four values; `Linear` satisfies both `is_convex` and
`is_concave`, `Unknown` neither. -/
inductive Convexity where
  | Linear : Convexity
  | Convex : Convexity
  | Concave : Convexity
  | Unknown : Convexity
deriving DecidableEq

namespace Convexity

/-- `Convexity.is_linear`. -/
def is_linear : Convexity → Bool
  | Linear => true
  | _ => false

/-- `Convexity.is_convex`: true for `Convex` and `Linear`. -/
def is_convex : Convexity → Bool
  | Linear => true
  | Convex => true
  | _ => false

/-- `Convexity.is_concave`: true for `Concave` and `Linear`. -/
def is_concave : Convexity → Bool
  | Linear => true
  | Concave => true
  | _ => false

end Convexity

/-- `suspect.convexity.pow._numeric_exponent_pow_convexity`.  The context
lookups `ctx.convexity[base]` and `ctx.bound[base]` are passed in directly as
`cvx` and `boundBase`. -/
def numericExponentPowConvexity (tol : ℚ) (exponent : ℚ) (cvx : Convexity)
    (boundBase : Interval) : Convexity :=
  let isInteger := almosteqQ tol exponent ((truncQ exponent : ℤ) : ℚ)
  let isEven := almosteqQ tol (qmod exponent 2) 0
  if almosteqQ tol exponent 0 then Convexity.Linear
  else if almosteqQ tol exponent 1 then cvx
  else if isInteger && isEven && decide (0 < exponent) then
    if cvx.is_linear then Convexity.Convex
    else if cvx.is_convex && boundBase.is_nonnegative tol then Convexity.Convex
    else if cvx.is_concave && boundBase.is_nonpositive tol then Convexity.Convex
    else Convexity.Unknown
  else if isInteger && isEven && almostlteQ tol exponent 0 then
    if cvx.is_convex && boundBase.is_nonpositive tol then Convexity.Convex
    else if cvx.is_concave && boundBase.is_nonnegative tol then Convexity.Convex
    else if cvx.is_convex && boundBase.is_nonnegative tol then Convexity.Concave
    else if cvx.is_concave && boundBase.is_nonpositive tol then Convexity.Concave
    else Convexity.Unknown
  else if isInteger && decide (0 < exponent) then
    if almosteqQ tol exponent 1 then cvx
    else if cvx.is_convex && boundBase.is_nonnegative tol then Convexity.Convex
    else if cvx.is_concave && boundBase.is_nonpositive tol then Convexity.Concave
    else Convexity.Unknown
  else if isInteger && almostlteQ tol exponent 0 then
    if cvx.is_concave && boundBase.is_nonnegative tol then Convexity.Convex
    else if cvx.is_convex && boundBase.is_nonpositive tol then Convexity.Concave
    else Convexity.Unknown
  else
    if boundBase.is_nonnegative tol then
      if cvx.is_convex && decide (1 < exponent) then Convexity.Convex
      else if cvx.is_concave && decide (exponent < 0) then Convexity.Convex
      else if cvx.is_concave && (decide (0 < exponent) && decide (exponent < 1)) then
        Convexity.Concave
      else if cvx.is_convex && decide (exponent < 0) then Convexity.Concave
      else Convexity.Unknown
    else Convexity.Unknown

/-- Monotonicity lattice (`suspect.monotonicity.monotonicity.Monotonicity`).
Modelled from the spec: four values (the literal value a `Constant` may carry
is not needed by the verified claims). -/
inductive Monotonicity where
  | Constant : Monotonicity
  | Nondecreasing : Monotonicity
  | Nonincreasing : Monotonicity
  | Unknown : Monotonicity
deriving DecidableEq

/-- Expression node kinds: the Python classes keyed in
`suspect/monotonicity/visitor.py`'s `_expr_to_rule_map`, plus `other` for any
class absent from the table. -/
inductive NodeKind where
  | NumericConstant : NodeKind
  | Var : NodeKind
  | Constraint : NodeKind
  | Objective : NodeKind
  | MonomialTermExpression : NodeKind
  | ProductExpression : NodeKind
  | DivisionExpression : NodeKind
  | ReciprocalExpression : NodeKind
  | LinearExpression : NodeKind
  | SumExpression : NodeKind
  | PowExpression : NodeKind
  | NegationExpression : NodeKind
  | AbsExpression : NodeKind
  | QuadraticExpression : NodeKind
  | UnaryFunctionExpression : NodeKind
  | other : String → NodeKind
deriving DecidableEq

/-- Tags for the rule objects installed in `_expr_to_rule_map`.  The rule
implementations live in `suspect.monotonicity.rules`, outside the analysed
sources; the dispatcher is verified relative to an abstract application
function over these tags. -/
inductive RuleTag where
  | ConstantRule : RuleTag
  | VariableRule : RuleTag
  | ConstraintRule : RuleTag
  | ObjectiveRule : RuleTag
  | ProductRule : RuleTag
  | DivisionRule : RuleTag
  | ReciprocalRule : RuleTag
  | LinearRule : RuleTag
  | SumRule : RuleTag
  | PowerRule : RuleTag
  | NegationRule : RuleTag
  | AbsRule : RuleTag
  | QuadraticRule : RuleTag
  | CombineUnaryFunctionRules : RuleTag
deriving DecidableEq

/-- `_expr_to_rule_map`: the module-level dispatch table keyed by node
class; a class absent from the dict has no entry (`KeyError` on lookup). -/
def exprToRuleMap : NodeKind → Option RuleTag
  | NodeKind.NumericConstant => some RuleTag.ConstantRule
  | NodeKind.Var => some RuleTag.VariableRule
  | NodeKind.Constraint => some RuleTag.ConstraintRule
  | NodeKind.Objective => some RuleTag.ObjectiveRule
  | NodeKind.MonomialTermExpression => some RuleTag.ProductRule
  | NodeKind.ProductExpression => some RuleTag.ProductRule
  | NodeKind.DivisionExpression => some RuleTag.DivisionRule
  | NodeKind.ReciprocalExpression => some RuleTag.ReciprocalRule
  | NodeKind.LinearExpression => some RuleTag.LinearRule
  | NodeKind.SumExpression => some RuleTag.SumRule
  | NodeKind.PowExpression => some RuleTag.PowerRule
  | NodeKind.NegationExpression => some RuleTag.NegationRule
  | NodeKind.AbsExpression => some RuleTag.AbsRule
  | NodeKind.QuadraticExpression => some RuleTag.QuadraticRule
  | NodeKind.UnaryFunctionExpression => some RuleTag.CombineUnaryFunctionRules
  | NodeKind.other _ => none

/-- An expression node as the dispatcher observes it: its Python class
(`kind`), whether that class is a raw-number leaf type, and the results of
the `is_constant` / `is_variable_type` / `is_expression_type` queries. -/
structure ExprNode where
  kind : NodeKind
  isLeafNumber : Bool
  isConstant : Bool
  isVariableType : Bool
  isExpressionType : Bool
deriving DecidableEq

/-- `propagate_expression_monotonicity`: leaf numbers and constant
expressions use the `NumericConstant` rule, variables the `Var` rule; every
other node asserts `is_expression_type` and dispatches on its class, raising
`KeyError` when the class is not in the table.  The rule application
`rule.apply(expr, monotonicity, bounds)` is abstracted by `apply`. -/
def propagateExpressionMonotonicity {α : Type} (apply : RuleTag → ExprNode → α)
    (expr : ExprNode) : Except String α :=
  if expr.isLeafNumber then Except.ok (apply RuleTag.ConstantRule expr)
  else if expr.isConstant then Except.ok (apply RuleTag.ConstantRule expr)
  else if expr.isVariableType then Except.ok (apply RuleTag.VariableRule expr)
  else if !expr.isExpressionType then
    Except.error "AssertionError: expr.is_expression_type()"
  else
    match exprToRuleMap expr.kind with
    | none => Except.error "KeyError: unregistered expression kind"
    | some rule => Except.ok (apply rule expr)

/-- One Context mapping (node identity to monotonicity).  Modelled from the
spec: the Context mappings are "write-once per node per mapping (re-setting
an already-set entry is a programming-error invariant violation)", "enforced
as a logic assertion"; the Context class is outside the analysed sources. -/
structure Context where
  entries : List (Nat × Monotonicity)
deriving DecidableEq

namespace Context

/-- Whether a node identity already has an entry. -/
def hasKey (ctx : Context) (k : Nat) : Bool :=
  ctx.entries.any (fun e => e.1 == k)

/-- Modelled from the spec: setting a Context entry asserts the entry is not
already set, then records it. -/
def set (ctx : Context) (k : Nat) (v : Monotonicity) : Except String Context :=
  if ctx.hasKey k then Except.error "AssertionError: context entry already set"
  else Except.ok ⟨(k, v) :: ctx.entries⟩

/-- Look up a node identity. -/
def get? (ctx : Context) (k : Nat) : Option Monotonicity :=
  (ctx.entries.find? (fun e => e.1 == k)).map Prod.snd

end Context

/-- `MonotonicityPropagationVisitor.handle_result`: stores the node's
monotonicity in the context mapping and returns `True`. -/
def handleResult (ctx : Context) (exprId : Nat) (result : Monotonicity) :
    Except String (Bool × Context) :=
  (ctx.set exprId result).map (fun c => (true, c))

/-! ## Helper lemmas about the extended rationals -/

namespace ERat

theorem le_def (a b : ERat) : (a ≤ b) = (a.ble b = true) := rfl

@[simp] theorem fin_le_fin {a b : ℚ} : (fin a ≤ fin b) ↔ a ≤ b := by
  simp [le_def, ble]

@[simp] theorem negInf_le (a : ERat) : negInf ≤ a := by
  cases a <;> simp [le_def, ble]

@[simp] theorem le_posInf (a : ERat) : a ≤ posInf := by
  cases a <;> simp [le_def, ble]

@[simp] theorem not_posInf_le_fin (a : ℚ) : ¬ (posInf ≤ fin a) := by
  simp [le_def, ble]

@[simp] theorem not_fin_le_negInf (a : ℚ) : ¬ (fin a ≤ negInf) := by
  simp [le_def, ble]

@[simp] theorem not_posInf_le_negInf : ¬ (posInf ≤ (negInf : ERat)) := by
  simp [le_def, ble]

theorem round_le {f : ℚ → ℚ} (hf : ∀ q, f q ≤ q) (e : ERat) : e.round f ≤ e := by
  cases e <;> simp [round, hf]

theorem le_round {f : ℚ → ℚ} (hf : ∀ q, q ≤ f q) (e : ERat) : e ≤ e.round f := by
  cases e <;> simp [round, hf]

theorem add_le_fin {la lb : ERat} {x y : ℚ} (hx : la ≤ fin x) (hy : lb ≤ fin y) :
    la.add lb ≤ fin (x + y) := by
  cases la with
  | negInf => simp [add]
  | posInf => exact absurd hx (by simp)
  | fin a =>
    cases lb with
    | negInf => simp [add]
    | posInf => exact absurd hy (by simp)
    | fin b =>
      simp only [add, fin_le_fin] at *
      exact add_le_add hx hy

theorem fin_le_add {ua ub : ERat} {x y : ℚ} (hx : fin x ≤ ua) (hy : fin y ≤ ub) :
    fin (x + y) ≤ ua.add ub := by
  cases ua with
  | negInf => exact absurd hx (by simp)
  | posInf =>
    cases ub with
    | negInf => exact absurd hy (by simp)
    | posInf => simp [add]
    | fin b => simp [add]
  | fin a =>
    cases ub with
    | negInf => exact absurd hy (by simp)
    | posInf => simp [add]
    | fin b =>
      simp only [add, fin_le_fin] at *
      exact add_le_add hx hy

theorem neg_le_fin {ua : ERat} {y : ℚ} (hy : fin y ≤ ua) : ua.neg ≤ fin (-y) := by
  cases ua with
  | negInf => exact absurd hy (by simp)
  | posInf => simp [neg]
  | fin a => simp only [neg, fin_le_fin] at *; linarith

theorem fin_le_neg {la : ERat} {y : ℚ} (hy : la ≤ fin y) : fin (-y) ≤ la.neg := by
  cases la with
  | posInf => exact absurd hy (by simp)
  | negInf => simp [neg]
  | fin a => simp only [neg, fin_le_fin] at *; linarith

theorem fin_mul_le_max_endpoints {la ua : ERat} {x : ℚ} (y : ℚ)
    (hxl : la ≤ fin x) (hxu : fin x ≤ ua) :
    fin (x * y) ≤ max (la.mul (fin y)) (ua.mul (fin y)) := by
  rcases le_or_lt 0 y with hy | hy
  · refine le_trans ?_ (le_max_right _ _)
    cases ua with
    | negInf => exact absurd hxu (by simp)
    | posInf =>
      rcases lt_or_eq_of_le hy with hy' | hy'
      · simp [mul, hy']
      · simp [mul, ← hy', not_lt_of_le (le_refl (0 : ℚ))]
    | fin c =>
      rw [fin_le_fin] at hxu
      simp only [mul, fin_le_fin]
      exact mul_le_mul_of_nonneg_right hxu hy
  · refine le_trans ?_ (le_max_left _ _)
    cases la with
    | posInf => exact absurd hxl (by simp)
    | negInf => simp [mul, hy, asymm hy]
    | fin c =>
      rw [fin_le_fin] at hxl
      simp only [mul, fin_le_fin]
      exact mul_le_mul_of_nonpos_right hxl (le_of_lt hy)

theorem min_endpoints_le_fin_mul {la ua : ERat} {x : ℚ} (y : ℚ)
    (hxl : la ≤ fin x) (hxu : fin x ≤ ua) :
    min (la.mul (fin y)) (ua.mul (fin y)) ≤ fin (x * y) := by
  rcases le_or_lt 0 y with hy | hy
  · refine le_trans (min_le_left _ _) ?_
    cases la with
    | posInf => exact absurd hxl (by simp)
    | negInf =>
      rcases lt_or_eq_of_le hy with hy' | hy'
      · simp [mul, hy']
      · simp [mul, ← hy', not_lt_of_le (le_refl (0 : ℚ))]
    | fin c =>
      rw [fin_le_fin] at hxl
      simp only [mul, fin_le_fin]
      exact mul_le_mul_of_nonneg_right hxl hy
  · refine le_trans (min_le_right _ _) ?_
    cases ua with
    | negInf => exact absurd hxu (by simp)
    | posInf => simp [mul, hy, asymm hy]
    | fin c =>
      rw [fin_le_fin] at hxu
      simp only [mul, fin_le_fin]
      exact mul_le_mul_of_nonpos_right hxu (le_of_lt hy)

theorem mul_fin_le_max {lb ub : ERat} {y : ℚ} (e : ERat)
    (hyl : lb ≤ fin y) (hyu : fin y ≤ ub) :
    e.mul (fin y) ≤ max (e.mul lb) (e.mul ub) := by
  cases e with
  | negInf =>
    rcases lt_trichotomy y 0 with hy | hy | hy
    · refine le_trans ?_ (le_max_left _ _)
      cases lb with
      | posInf => exact absurd hyl (by simp)
      | negInf => simp [mul, hy, asymm hy]
      | fin b =>
        rw [fin_le_fin] at hyl
        have hb : b < 0 := lt_of_le_of_lt hyl hy
        simp [mul, hy, asymm hy, hb, asymm hb]
    · subst hy
      refine le_trans ?_ (le_max_left _ _)
      cases lb with
      | posInf => exact absurd hyl (by simp)
      | negInf => simp [mul, not_lt_of_le (le_refl (0 : ℚ))]
      | fin b =>
        rw [fin_le_fin] at hyl
        rcases lt_or_eq_of_le hyl with hb | hb
        · simp [mul, not_lt_of_le (le_refl (0 : ℚ)), hb, asymm hb]
        · simp [mul, not_lt_of_le (le_refl (0 : ℚ)), ← hb]
    · refine le_trans ?_ (le_max_right _ _)
      simp [mul, hy]
  | posInf =>
    rcases lt_trichotomy y 0 with hy | hy | hy
    · refine le_trans ?_ (le_max_left _ _)
      simp [mul, hy, asymm hy]
    · subst hy
      refine le_trans ?_ (le_max_right _ _)
      cases ub with
      | negInf => exact absurd hyu (by simp)
      | posInf => simp [mul, not_lt_of_le (le_refl (0 : ℚ))]
      | fin b =>
        rw [fin_le_fin] at hyu
        rcases lt_or_eq_of_le hyu with hb | hb
        · simp [mul, not_lt_of_le (le_refl (0 : ℚ)), hb]
        · simp [mul, not_lt_of_le (le_refl (0 : ℚ)), ← hb]
    · refine le_trans ?_ (le_max_right _ _)
      cases ub with
      | negInf => exact absurd hyu (by simp)
      | posInf => simp [mul]
      | fin b =>
        rw [fin_le_fin] at hyu
        have hb : 0 < b := lt_of_lt_of_le hy hyu
        simp [mul, hy, hb]
  | fin a =>
    rcases lt_trichotomy a 0 with ha | ha | ha
    · refine le_trans ?_ (le_max_left _ _)
      cases lb with
      | posInf => exact absurd hyl (by simp)
      | negInf => simp [mul, ha, asymm ha]
      | fin b =>
        rw [fin_le_fin] at hyl
        simp only [mul, fin_le_fin]
        exact mul_le_mul_of_nonpos_left hyl (le_of_lt ha)
    · subst ha
      refine le_trans ?_ (le_max_left _ _)
      cases lb with
      | posInf => exact absurd hyl (by simp)
      | negInf => simp [mul, not_lt_of_le (le_refl (0 : ℚ))]
      | fin b => simp [mul]
    · refine le_trans ?_ (le_max_right _ _)
      cases ub with
      | negInf => exact absurd hyu (by simp)
      | posInf => simp [mul, ha]
      | fin b =>
        rw [fin_le_fin] at hyu
        simp only [mul, fin_le_fin]
        exact mul_le_mul_of_nonneg_left hyu (le_of_lt ha)

theorem min_le_mul_fin {lb ub : ERat} {y : ℚ} (e : ERat)
    (hyl : lb ≤ fin y) (hyu : fin y ≤ ub) :
    min (e.mul lb) (e.mul ub) ≤ e.mul (fin y) := by
  cases e with
  | negInf =>
    rcases lt_trichotomy y 0 with hy | hy | hy
    · refine le_trans (min_le_right _ _) ?_
      simp [mul, hy, asymm hy]
    · subst hy
      refine le_trans (min_le_right _ _) ?_
      cases ub with
      | negInf => exact absurd hyu (by simp)
      | posInf => simp [mul, not_lt_of_le (le_refl (0 : ℚ))]
      | fin b =>
        rw [fin_le_fin] at hyu
        rcases lt_or_eq_of_le hyu with hb | hb
        · simp [mul, not_lt_of_le (le_refl (0 : ℚ)), hb, asymm hb]
        · simp [mul, not_lt_of_le (le_refl (0 : ℚ)), hb]
    · refine le_trans (min_le_right _ _) ?_
      cases ub with
      | negInf => exact absurd hyu (by simp)
      | posInf => simp [mul]
      | fin b =>
        rw [fin_le_fin] at hyu
        have hb : 0 < b := lt_of_lt_of_le hy hyu
        simp [mul, hy, hb]
  | posInf =>
    rcases lt_trichotomy y 0 with hy | hy | hy
    · refine le_trans (min_le_left _ _) ?_
      cases lb with
      | posInf => exact absurd hyl (by simp)
      | negInf => simp [mul, hy, asymm hy]
      | fin b =>
        rw [fin_le_fin] at hyl
        have hb : b < 0 := lt_of_le_of_lt hyl hy
        simp [mul, hy, asymm hy, hb, asymm hb]
    · subst hy
      refine le_trans (min_le_left _ _) ?_
      cases lb with
      | posInf => exact absurd hyl (by simp)
      | negInf => simp [mul, not_lt_of_le (le_refl (0 : ℚ))]
      | fin b =>
        rw [fin_le_fin] at hyl
        rcases lt_or_eq_of_le hyl with hb | hb
        · simp [mul, not_lt_of_le (le_refl (0 : ℚ)), hb, asymm hb]
        · simp [mul, not_lt_of_le (le_refl (0 : ℚ)), hb]
    · refine le_trans (min_le_left _ _) ?_
      cases lb with
      | posInf => exact absurd hyl (by simp)
      | negInf => simp [mul, hy, asymm hy]
      | fin b => simp [mul, hy]
  | fin a =>
    rcases lt_trichotomy a 0 with ha | ha | ha
    · refine le_trans (min_le_right _ _) ?_
      cases ub with
      | negInf => exact absurd hyu (by simp)
      | posInf => simp [mul, ha, asymm ha]
      | fin b =>
        rw [fin_le_fin] at hyu
        simp only [mul, fin_le_fin]
        exact mul_le_mul_of_nonpos_left hyu (le_of_lt ha)
    · subst ha
      refine le_trans (min_le_left _ _) ?_
      cases lb with
      | posInf => exact absurd hyl (by simp)
      | negInf => simp [mul, not_lt_of_le (le_refl (0 : ℚ))]
      | fin b => simp [mul]
    · refine le_trans (min_le_left _ _) ?_
      cases lb with
      | posInf => exact absurd hyl (by simp)
      | negInf => simp [mul, ha]
      | fin b =>
        rw [fin_le_fin] at hyl
        simp only [mul, fin_le_fin]
        exact mul_le_mul_of_nonneg_left hyl (le_of_lt ha)

theorem fin_mul_le_corners {la ua lb ub : ERat} {x y : ℚ}
    (hxl : la ≤ fin x) (hxu : fin x ≤ ua) (hyl : lb ≤ fin y) (hyu : fin y ≤ ub) :
    fin (x * y) ≤
      max (max (la.mul lb) (la.mul ub)) (max (ua.mul lb) (ua.mul ub)) :=
  le_trans (fin_mul_le_max_endpoints y hxl hxu)
    (max_le_max (mul_fin_le_max la hyl hyu) (mul_fin_le_max ua hyl hyu))

theorem corners_le_fin_mul {la ua lb ub : ERat} {x y : ℚ}
    (hxl : la ≤ fin x) (hxu : fin x ≤ ua) (hyl : lb ≤ fin y) (hyu : fin y ≤ ub) :
    min (min (la.mul lb) (la.mul ub)) (min (ua.mul lb) (ua.mul ub)) ≤
      fin (x * y) :=
  le_trans (min_le_min (min_le_mul_fin la hyl hyu) (min_le_mul_fin ua hyl hyu))
    (min_endpoints_le_fin_mul y hxl hxu)

end ERat

/-! ## Membership lemmas for the interval operations -/

namespace Interval

theorem mem_neg {B : Interval} {y : ℚ} (hy : Mem y B) : Mem (-y) B.neg :=
  ⟨ERat.neg_le_fin hy.2, ERat.fin_le_neg hy.1⟩

theorem mem_add {cfg : Config} (hcfg : cfg.Sound) {A B : Interval} {x y : ℚ}
    (hx : Mem x A) (hy : Mem y B) : Mem (x + y) (add cfg A B) := by
  refine ⟨le_trans (ERat.round_le hcfg.2.1 _) (ERat.add_le_fin hx.1 hy.1), ?_⟩
  exact le_trans (ERat.fin_le_add hx.2 hy.2) (ERat.le_round hcfg.2.2 _)

theorem mem_sub {cfg : Config} (hcfg : cfg.Sound) {A B : Interval} {x y : ℚ}
    (hx : Mem x A) (hy : Mem y B) : Mem (x - y) (sub cfg A B) := by
  rw [sub_eq_add_neg]
  exact mem_add hcfg hx (mem_neg hy)

theorem is_zero_eq_zero {A : Interval} (h : A.is_zero 0 = true) : A = zero := by
  obtain ⟨la, ua⟩ := A
  simp only [is_zero, Bool.and_eq_true] at h
  obtain ⟨h1, h2⟩ := h
  cases la <;> cases ua <;>
    simp_all [ERat.almosteq, zero, abs_nonpos_iff, sub_eq_zero]

theorem mem_mul {cfg : Config} (hcfg : cfg.Sound) {A B : Interval} {x y : ℚ}
    (hx : Mem x A) (hy : Mem y B)
    (hside : (A.is_zero cfg.tol = false ∧ B.is_zero cfg.tol = false) ∨ cfg.tol = 0) :
    Mem (x * y) (mul cfg A B) := by
  rcases hside with ⟨hA, hB⟩ | htol
  · rw [mul, if_neg (by simp [hA, hB])]
    refine ⟨le_trans (ERat.round_le hcfg.2.1 _) ?_, le_trans ?_ (ERat.le_round hcfg.2.2 _)⟩
    · exact ERat.corners_le_fin_mul hx.1 hx.2 hy.1 hy.2
    · exact ERat.fin_mul_le_corners hx.1 hx.2 hy.1 hy.2
  · by_cases hA : A.is_zero cfg.tol = true
    · have hx0 : x = 0 := by
        have hz := is_zero_eq_zero (htol ▸ hA)
        rw [hz, zero] at hx
        have h1 := hx.1
        have h2 := hx.2
        simp only [ERat.fin_le_fin] at h1 h2
        linarith
      rw [mul, if_pos (by simp [hA]), hx0, zero_mul]
      exact ⟨by simp [zero], by simp [zero]⟩
    · by_cases hB : B.is_zero cfg.tol = true
      · have hy0 : y = 0 := by
          have hz := is_zero_eq_zero (htol ▸ hB)
          rw [hz, zero] at hy
          have h1 := hy.1
          have h2 := hy.2
          simp only [ERat.fin_le_fin] at h1 h2
          linarith
        rw [mul, if_pos (by simp [hB]), hy0, mul_zero]
        exact ⟨by simp [zero], by simp [zero]⟩
      · rw [mul, if_neg (by simp [Bool.eq_false_iff.mpr hA, Bool.eq_false_iff.mpr hB])]
        refine ⟨le_trans (ERat.round_le hcfg.2.1 _) ?_,
          le_trans ?_ (ERat.le_round hcfg.2.2 _)⟩
        · exact ERat.corners_le_fin_mul hx.1 hx.2 hy.1 hy.2
        · exact ERat.fin_mul_le_corners hx.1 hx.2 hy.1 hy.2

theorem not_containsQ_zero {tol : ℚ} {B : Interval} {y : ℚ} (htol : 0 ≤ tol)
    (hy : Mem y B) (h0 : containsQ tol B 0 = false) :
    (∃ l, B.lower = ERat.fin l ∧ tol < l) ∨ (∃ u, B.upper = ERat.fin u ∧ u < -tol) := by
  simp only [containsQ, Bool.and_eq_false_iff] at h0
  rcases h0 with h | h
  · left
    cases hl : B.lower with
    | negInf => rw [hl] at h; simp [ERat.almostlte, ERat.ble] at h
    | posInf => exact absurd (hl ▸ hy.1) (by simp)
    | fin l =>
      rw [hl] at h
      simp only [ERat.almostlte, ERat.almosteq, ERat.ble, Bool.or_eq_false_iff,
        decide_eq_false_iff_not, not_le, abs_le, not_and, not_le] at h
      obtain ⟨h1, h2⟩ := h
      refine ⟨l, rfl, ?_⟩
      have := h2 (by linarith)
      linarith
  · right
    cases hu : B.upper with
    | posInf => rw [hu] at h; simp [ERat.almostlte, ERat.ble] at h
    | negInf => exact absurd (hu ▸ hy.2) (by simp)
    | fin u =>
      rw [hu] at h
      simp only [ERat.almostlte, ERat.almosteq, ERat.ble, Bool.or_eq_false_iff,
        decide_eq_false_iff_not, not_le, abs_le, not_and, not_le] at h
      obtain ⟨h1, h2⟩ := h
      refine ⟨u, rfl, ?_⟩
      have h3 := h2
      by_contra hcon
      push_neg at hcon
      have : -tol ≤ 0 - u := by linarith
      have : 0 - u ≤ tol := by linarith
      simp only [zero_sub] at *
      have := h2 (by linarith)
      linarith

theorem mem_inverse {cfg : Config} (hcfg : cfg.Sound) {B : Interval} {y : ℚ}
    (hy : Mem y B) (h0 : containsQ cfg.tol B 0 = false) :
    Mem y⁻¹ (inverse cfg B) := by
  rcases not_containsQ_zero hcfg.1 hy h0 with ⟨l, hl, hlt⟩ | ⟨u, hu, hlt⟩
  · -- the interval is strictly positive
    have hy0 : 0 < y := by
      have := hy.1
      rw [hl, ERat.fin_le_fin] at this
      linarith [hcfg.1]
    constructor
    · refine le_trans (ERat.round_le hcfg.2.1 _) ?_
      cases hu : B.upper with
      | negInf => exact absurd (hu ▸ hy.2) (by simp)
      | posInf => simp [ERat.inv, inv_nonneg.mpr (le_of_lt hy0)]
      | fin u =>
        have hyu : y ≤ u := by have := hy.2; rwa [hu, ERat.fin_le_fin] at this
        simp only [ERat.inv, ERat.fin_le_fin]
        exact inv_anti₀ hy0 hyu
    · refine le_trans ?_ (ERat.le_round hcfg.2.2 _)
      rw [hl]
      have hyl : l ≤ y := by have := hy.1; rwa [hl, ERat.fin_le_fin] at this
      simp only [ERat.inv, ERat.fin_le_fin]
      exact inv_anti₀ (by linarith [hcfg.1]) hyl
  · -- the interval is strictly negative
    have hy0 : y < 0 := by
      have := hy.2
      rw [hu, ERat.fin_le_fin] at this
      linarith [hcfg.1]
    constructor
    · refine le_trans (ERat.round_le hcfg.2.1 _) ?_
      rw [hu]
      have hyu : y ≤ u := by have := hy.2; rwa [hu, ERat.fin_le_fin] at this
      simp only [ERat.inv, ERat.fin_le_fin]
      have hu0 : u < 0 := by linarith [hcfg.1]
      exact (inv_le_inv_of_neg hu0 hy0).mpr hyu
    · refine le_trans ?_ (ERat.le_round hcfg.2.2 _)
      cases hl : B.lower with
      | posInf => exact absurd (hl ▸ hy.1) (by simp)
      | negInf => simp [ERat.inv, inv_nonpos.mpr (le_of_lt hy0)]
      | fin l =>
        have hyl : l ≤ y := by have := hy.1; rwa [hl, ERat.fin_le_fin] at this
        simp only [ERat.inv, ERat.fin_le_fin]
        exact (inv_le_inv_of_neg hy0 (by linarith [hcfg.1] : l < 0)).mpr hyl

end Interval

end Suspect


/-! ## Claim theorems -/

namespace Suspect

theorem defaultCfg_sound : defaultCfg.Sound :=
  ⟨by norm_num [defaultCfg], fun q => le_refl q, fun q => le_refl q⟩

/-- First operand of the zero-collapse counterexample: within-tolerance zero
but containing the nonzero value `2⁻⁴⁸`. -/
def cexA : Interval := ⟨ERat.fin 0, ERat.fin (1 / 2 ^ 48)⟩

/-- Second operand of the zero-collapse counterexample. -/
def cexB : Interval := ⟨ERat.fin (2 ^ 48), ERat.fin (2 ^ 48)⟩

/-- C1 (counterexample): multiplication is not sound as claimed.  With the
tolerance-based `is_zero` test, the interval `[0, 2⁻⁴⁸]` is within-tolerance
zero, so `[0, 2⁻⁴⁸] * [2⁴⁸, 2⁴⁸]` collapses to `[0, 0]`; yet `x = 2⁻⁴⁸` lies
in the first operand, `y = 2⁴⁸` in the second, and `x·y = 1` is not in the
returned interval. -/
theorem mul_zero_collapse_unsound :
    Interval.Mem (1 / 2 ^ 48) cexA ∧
    Interval.Mem (2 ^ 48) cexB ∧
    ¬ Interval.Mem ((1 / 2 ^ 48) * 2 ^ 48) (Interval.mul defaultCfg cexA cexB) := by
  refine ⟨⟨ERat.fin_le_fin.mpr (by norm_num), ERat.fin_le_fin.mpr (by norm_num)⟩,
    ⟨ERat.fin_le_fin.mpr (by norm_num), ERat.fin_le_fin.mpr (by norm_num)⟩, ?_⟩
  have hz : Interval.is_zero defaultCfg.tol cexA = true := by
    norm_num [Interval.is_zero, ERat.almosteq, cexA, defaultCfg, abs_le]
  intro h
  rw [Interval.mul, if_pos (by simp [hz])] at h
  have h2 := h.2
  rw [show (1 / 2 ^ 48 : ℚ) * 2 ^ 48 = 1 by norm_num] at h2
  exact absurd (ERat.fin_le_fin.mp h2) (by norm_num)

/-- C1 (amended): for every sound backend, addition and subtraction are sound
unconditionally; multiplication is sound provided neither operand is the
within-tolerance zero interval (or the tolerance is exactly zero, making the
zero-collapse shortcut harmless); division by an interval not containing zero
is sound under the same proviso for the multiplication it is built from
(first operand and reciprocal interval not within-tolerance zero, or zero
tolerance). -/
theorem interval_arithmetic_soundness (cfg : Config) (hcfg : cfg.Sound)
    (A B : Interval) (x y : ℚ) (hx : Interval.Mem x A) (hy : Interval.Mem y B) :
    Interval.Mem (x + y) (Interval.add cfg A B) ∧
    Interval.Mem (x - y) (Interval.sub cfg A B) ∧
    ((A.is_zero cfg.tol = false ∧ B.is_zero cfg.tol = false) ∨ cfg.tol = 0 →
      Interval.Mem (x * y) (Interval.mul cfg A B)) ∧
    (Interval.containsQ cfg.tol B 0 = false →
      (A.is_zero cfg.tol = false ∧ (Interval.inverse cfg B).is_zero cfg.tol = false) ∨
        cfg.tol = 0 →
      Interval.Mem (x / y) (Interval.div cfg A B)) := by
  refine ⟨Interval.mem_add hcfg hx hy, Interval.mem_sub hcfg hx hy,
    fun hside => Interval.mem_mul hcfg hx hy hside, fun h0 hside => ?_⟩
  rw [Interval.div, if_neg (by simp [h0]), div_eq_mul_inv]
  exact Interval.mem_mul hcfg hx (Interval.mem_inverse hcfg hy h0) hside

/-- C1 (witness): the amended soundness theorem applied to the concrete sound
backend `defaultCfg`, the intervals `[1, 2]` and `[3, 4]` and the members
`x = 2`, `y = 3`. -/
theorem interval_arithmetic_soundness_witness :
    Interval.Mem (2 + 3) (Interval.add defaultCfg ⟨ERat.fin 1, ERat.fin 2⟩ ⟨ERat.fin 3, ERat.fin 4⟩) ∧
    Interval.Mem (2 - 3) (Interval.sub defaultCfg ⟨ERat.fin 1, ERat.fin 2⟩ ⟨ERat.fin 3, ERat.fin 4⟩) ∧
    Interval.Mem (2 * 3) (Interval.mul defaultCfg ⟨ERat.fin 1, ERat.fin 2⟩ ⟨ERat.fin 3, ERat.fin 4⟩) ∧
    Interval.Mem (2 / 3) (Interval.div defaultCfg ⟨ERat.fin 1, ERat.fin 2⟩ ⟨ERat.fin 3, ERat.fin 4⟩) := by
  have T := interval_arithmetic_soundness defaultCfg defaultCfg_sound
    ⟨ERat.fin 1, ERat.fin 2⟩ ⟨ERat.fin 3, ERat.fin 4⟩ 2 3
    ⟨ERat.fin_le_fin.mpr (by norm_num), ERat.fin_le_fin.mpr (by norm_num)⟩
    ⟨ERat.fin_le_fin.mpr (by norm_num), ERat.fin_le_fin.mpr (by norm_num)⟩
  have hA : Interval.is_zero defaultCfg.tol ⟨ERat.fin 1, ERat.fin 2⟩ = false := by
    norm_num [Interval.is_zero, ERat.almosteq, defaultCfg]
  have hB : Interval.is_zero defaultCfg.tol ⟨ERat.fin 3, ERat.fin 4⟩ = false := by
    norm_num [Interval.is_zero, ERat.almosteq, defaultCfg]
  have hI : Interval.is_zero defaultCfg.tol
      (Interval.inverse defaultCfg ⟨ERat.fin 3, ERat.fin 4⟩) = false := by
    norm_num [Interval.is_zero, Interval.inverse, ERat.almosteq, ERat.inv, ERat.round,
      defaultCfg, abs_le]
  have h0 : Interval.containsQ defaultCfg.tol ⟨ERat.fin 3, ERat.fin 4⟩ 0 = false := by
    norm_num [Interval.containsQ, ERat.almostlte, ERat.almosteq, ERat.ble, defaultCfg]
  exact ⟨T.1, T.2.1, T.2.2.1 (Or.inl ⟨hA, hB⟩), T.2.2.2 h0 (Or.inl ⟨hA, hI⟩)⟩

/-- C2: dividing by an interval that (within tolerance) contains zero returns
the unbounded interval `(-∞, +∞)`; otherwise the quotient is the product with
the reciprocal interval, whose endpoints are the swapped reciprocals
`1/upper` and `1/lower` with outward rounding. -/
theorem div_by_zero_containing_full_else_reciprocal_mul (cfg : Config)
    (A B : Interval) :
    (Interval.containsQ cfg.tol B 0 = true →
      Interval.div cfg A B = ⟨ERat.negInf, ERat.posInf⟩) ∧
    (Interval.containsQ cfg.tol B 0 = false →
      Interval.div cfg A B = Interval.mul cfg A (Interval.inverse cfg B) ∧
      Interval.inverse cfg B =
        ⟨ERat.round cfg.rd B.upper.inv, ERat.round cfg.ru B.lower.inv⟩) := by
  constructor
  · intro h
    rw [Interval.div, if_pos (by simp [h])]
  · intro h
    exact ⟨by rw [Interval.div, if_neg (by simp [h])], rfl⟩

/-- C2 (witness): the division dispatch evaluated on divisor `[-1, 1]`
(zero-containing) and divisor `[4, 8]`. -/
theorem div_by_zero_containing_full_else_reciprocal_mul_witness :
    Interval.div defaultCfg ⟨ERat.fin 1, ERat.fin 2⟩ ⟨ERat.fin (-1), ERat.fin 1⟩ =
      ⟨ERat.negInf, ERat.posInf⟩ ∧
    Interval.div defaultCfg ⟨ERat.fin 1, ERat.fin 2⟩ ⟨ERat.fin 4, ERat.fin 8⟩ =
      Interval.mul defaultCfg ⟨ERat.fin 1, ERat.fin 2⟩
        (Interval.inverse defaultCfg ⟨ERat.fin 4, ERat.fin 8⟩) := by
  constructor
  · refine (div_by_zero_containing_full_else_reciprocal_mul defaultCfg
      ⟨ERat.fin 1, ERat.fin 2⟩ ⟨ERat.fin (-1), ERat.fin 1⟩).1 ?_
    norm_num [Interval.containsQ, ERat.almostlte, ERat.almosteq, ERat.ble, defaultCfg]
  · refine ((div_by_zero_containing_full_else_reciprocal_mul defaultCfg
      ⟨ERat.fin 1, ERat.fin 2⟩ ⟨ERat.fin 4, ERat.fin 8⟩).2 ?_).1
    norm_num [Interval.containsQ, ERat.almostlte, ERat.almosteq, ERat.ble, defaultCfg]

/-- C8 (counterexample): construction with `lower > upper` *within* tolerance
does not succeed: `lower = 1 + 2⁻⁵⁰` and `upper = 1` differ by less than the
tolerance `2⁻⁴⁸`, yet the constructor raises, because the Python check is the
exact comparison `lower > upper`. -/
theorem interval_construction_within_tolerance_fails :
    Interval.make (some (ERat.fin (1 + 1 / 2 ^ 50))) (some (ERat.fin 1)) =
      Except.error "lower must be <= upper" ∧
    almosteqQ defaultCfg.tol (1 + 1 / 2 ^ 50) 1 = true := by
  constructor
  · have hlt : ERat.blt (ERat.fin 1) (ERat.fin (1 + 1 / 2 ^ 50)) = true := by
      norm_num [ERat.blt, ERat.ble]
    simp only [Interval.make, Option.getD_some]
    rw [if_pos hlt]
  · norm_num [almosteqQ, defaultCfg, abs_le]

/-- C8 (amended): construction fails exactly when `lower > upper` under the
*exact* order (not merely beyond tolerance); an unspecified (`none`) lower
bound maps to `-∞` and an unspecified upper bound to `+∞`; every successfully
constructed interval satisfies `lower ≤ upper` (hence also within
tolerance). -/
theorem interval_construction_exact_check (lo up : Option ERat) :
    (lo.getD ERat.negInf ≤ up.getD ERat.posInf →
      Interval.make lo up = Except.ok ⟨lo.getD ERat.negInf, up.getD ERat.posInf⟩) ∧
    (¬ lo.getD ERat.negInf ≤ up.getD ERat.posInf →
      Interval.make lo up = Except.error "lower must be <= upper") ∧
    (∀ i : Interval, Interval.make lo up = Except.ok i → i.lower ≤ i.upper) := by
  refine ⟨fun h => ?_, fun h => ?_, fun i hi => ?_⟩
  · have hnlt : ¬ (ERat.blt (up.getD ERat.posInf) (lo.getD ERat.negInf) = true) :=
      fun hlt => absurd h (not_le.mpr hlt)
    simp only [Interval.make]
    rw [if_neg hnlt]
  · have hlt : ERat.blt (up.getD ERat.posInf) (lo.getD ERat.negInf) = true :=
      not_le.mp h
    simp only [Interval.make]
    rw [if_pos hlt]
  · by_cases hlt : ERat.blt (up.getD ERat.posInf) (lo.getD ERat.negInf) = true
    · simp only [Interval.make] at hi
      rw [if_pos hlt] at hi
      exact absurd hi (by simp)
    · simp only [Interval.make] at hi
      rw [if_neg hlt] at hi
      have hle : lo.getD ERat.negInf ≤ up.getD ERat.posInf :=
        not_lt.mp (fun hcon => hlt hcon)
      cases hi
      exact hle

/-- C8 (witness): the amended construction theorem at `(none, some 1)`,
checking defaulting of the unspecified lower bound and the invariant of the
constructed interval. -/
theorem interval_construction_exact_check_witness :
    Interval.make none (some (ERat.fin 1)) =
      Except.ok ⟨ERat.negInf, ERat.fin 1⟩ ∧
    (⟨ERat.negInf, ERat.fin 1⟩ : Interval).lower ≤ (⟨ERat.negInf, ERat.fin 1⟩ : Interval).upper := by
  constructor
  · exact (interval_construction_exact_check none (some (ERat.fin 1))).1 (by simp)
  · exact (interval_construction_exact_check none (some (ERat.fin 1))).2.2
      ⟨ERat.negInf, ERat.fin 1⟩
      ((interval_construction_exact_check none (some (ERat.fin 1))).1 (by simp))


/-- C3: the monotonicity dispatcher, on a node that reaches the table lookup
(not a raw number, not constant, not a variable, and an expression type),
raises a fatal `KeyError` when the node kind is unregistered — it never
silently returns a result — and applies exactly the mapped rule when the kind
is registered. -/
theorem dispatch_unregistered_kind_fatal {α : Type} (apply : RuleTag → ExprNode → α)
    (expr : ExprNode) (h1 : expr.isLeafNumber = false) (h2 : expr.isConstant = false)
    (h3 : expr.isVariableType = false) (h4 : expr.isExpressionType = true) :
    (exprToRuleMap expr.kind = none →
      propagateExpressionMonotonicity apply expr =
        Except.error "KeyError: unregistered expression kind") ∧
    (∀ rule : RuleTag, exprToRuleMap expr.kind = some rule →
      propagateExpressionMonotonicity apply expr = Except.ok (apply rule expr)) := by
  constructor
  · intro h
    simp [propagateExpressionMonotonicity, h1, h2, h3, h4, h]
  · intro rule h
    simp [propagateExpressionMonotonicity, h1, h2, h3, h4, h]

/-- C3 (witness): the dispatcher evaluated on an expression node of the
unregistered kind `FooExpression` (fatal error) and on a `PowExpression` node
(the power rule is applied). -/
theorem dispatch_unregistered_kind_fatal_witness :
    propagateExpressionMonotonicity (fun _ _ => Monotonicity.Unknown)
      ⟨NodeKind.other "FooExpression", false, false, false, true⟩ =
      Except.error "KeyError: unregistered expression kind" ∧
    propagateExpressionMonotonicity (fun _ _ => Monotonicity.Unknown)
      ⟨NodeKind.PowExpression, false, false, false, true⟩ =
      Except.ok Monotonicity.Unknown := by
  have H1 := dispatch_unregistered_kind_fatal (fun _ _ => Monotonicity.Unknown)
    ⟨NodeKind.other "FooExpression", false, false, false, true⟩ rfl rfl rfl rfl
  have H2 := dispatch_unregistered_kind_fatal (fun _ _ => Monotonicity.Unknown)
    ⟨NodeKind.PowExpression, false, false, false, true⟩ rfl rfl rfl rfl
  exact ⟨H1.1 rfl, H2.2 RuleTag.PowerRule rfl⟩

/-- C4: `sin` on an interval whose width is (within tolerance) at least `2π`
returns the unbounded interval `(-∞, +∞)`, and `tan` on an interval whose
width is (within tolerance) at least `π` likewise. -/
theorem periodic_width_guard_returns_full (cfg : Config) (A : Interval) :
    (ERat.almostgte cfg.tol A.size (ERat.fin (2 * cfg.pi)) = true →
      Interval.sinI cfg A = ⟨ERat.negInf, ERat.posInf⟩) ∧
    (ERat.almostgte cfg.tol A.size (ERat.fin cfg.pi) = true →
      Interval.tanI cfg A = ⟨ERat.negInf, ERat.posInf⟩) := by
  constructor
  · intro h
    rw [Interval.sinI, if_pos h]
  · intro h
    rw [Interval.tanI, if_pos h]

/-- C4 (witness): `sin` over `[0, 7]` (width `7 ≥ 2π`) and `tan` over `[0, 4]`
(width `4 ≥ π`) both return the unbounded interval. -/
theorem periodic_width_guard_returns_full_witness :
    Interval.sinI defaultCfg ⟨ERat.fin 0, ERat.fin 7⟩ = ⟨ERat.negInf, ERat.posInf⟩ ∧
    Interval.tanI defaultCfg ⟨ERat.fin 0, ERat.fin 4⟩ = ⟨ERat.negInf, ERat.posInf⟩ := by
  have hc7 : ¬ ((ERat.fin 0 = ERat.negInf) ∨ (ERat.fin 7 = ERat.posInf)) := by
    rintro (h | h) <;> exact ERat.noConfusion h
  have hc4 : ¬ ((ERat.fin 0 = ERat.negInf) ∨ (ERat.fin 4 = ERat.posInf)) := by
    rintro (h | h) <;> exact ERat.noConfusion h
  have hs7 : Interval.size ⟨ERat.fin 0, ERat.fin 7⟩ = ERat.fin 7 := by
    rw [Interval.size, if_neg hc7]
    norm_num [ERat.sub, ERat.add, ERat.neg]
  have hs4 : Interval.size ⟨ERat.fin 0, ERat.fin 4⟩ = ERat.fin 4 := by
    rw [Interval.size, if_neg hc4]
    norm_num [ERat.sub, ERat.add, ERat.neg]
  constructor
  · refine (periodic_width_guard_returns_full defaultCfg ⟨ERat.fin 0, ERat.fin 7⟩).1 ?_
    rw [hs7]
    norm_num [ERat.almostgte, ERat.almostlte, ERat.almosteq, ERat.ble, defaultCfg]
  · refine (periodic_width_guard_returns_full defaultCfg ⟨ERat.fin 0, ERat.fin 4⟩).2 ?_
    rw [hs4]
    norm_num [ERat.almostgte, ERat.almostlte, ERat.almosteq, ERat.ble, defaultCfg]

/-- C6: calling `acos` raises `TypeError` on every interval — here evaluated
on `[0, 1]` — instead of returning the decreasing-pattern interval
`[acos(upper) rounded down, acos(lower) rounded up]`, because
`monotonic_decreasing` applies `functools.wraps` without its argument. -/
theorem acos_raises_type_error :
    Interval.acosI ⟨ERat.fin 0, ERat.fin 1⟩ =
      Except.error
        "TypeError: update_wrapper() missing 1 required positional argument: wrapper" ∧
    ∀ j : Interval, Interval.acosI ⟨ERat.fin 0, ERat.fin 1⟩ ≠ Except.ok j := by
  exact ⟨rfl, fun j h => by simp [Interval.acosI, Interval.monotonicDecreasingApply] at h⟩

/-- C9: a Context entry is written exactly once: `handle_result` succeeds on a
node identity with no existing entry (storing the monotonicity and returning
`True`), and a second write to the same identity fails the logic assertion
rather than overwriting. -/
theorem context_write_once (ctx : Context) (k : Nat) (v v2 : Monotonicity)
    (h : ctx.hasKey k = false) :
    handleResult ctx k v = Except.ok (true, ⟨(k, v) :: ctx.entries⟩) ∧
    Context.get? ⟨(k, v) :: ctx.entries⟩ k = some v ∧
    handleResult ⟨(k, v) :: ctx.entries⟩ k v2 =
      Except.error "AssertionError: context entry already set" := by
  refine ⟨?_, ?_, ?_⟩
  · simp [handleResult, Context.set, h, Except.map]
  · simp [Context.get?, List.find?]
  · have hk : Context.hasKey ⟨(k, v) :: ctx.entries⟩ k = true := by
      simp [Context.hasKey]
    simp [handleResult, Context.set, hk, Except.map]

/-- C9 (witness): the write-once discipline on an empty context at node
identity `0`. -/
theorem context_write_once_witness :
    handleResult ⟨[]⟩ 0 Monotonicity.Constant =
      Except.ok (true, ⟨[(0, Monotonicity.Constant)]⟩) ∧
    handleResult ⟨[(0, Monotonicity.Constant)]⟩ 0 Monotonicity.Unknown =
      Except.error "AssertionError: context entry already set" := by
  refine ⟨(context_write_once ⟨[]⟩ 0 Monotonicity.Constant Monotonicity.Unknown rfl).1,
    (context_write_once ⟨[]⟩ 0 Monotonicity.Constant Monotonicity.Unknown rfl).2.2⟩

/-- C10: intersecting intervals with disjoint ranges returns the
`EmptyInterval` sentinel, which is built with bounds `(0, 0)`: it satisfies
`is_zero`, is equal (by the interval equality test) to `Interval(0, 0)`, and
contains the value `0` — indistinguishable by value from a genuine zero
interval. -/
theorem intersect_disjoint_empty_sentinel (tol : ℚ) (A B : Interval)
    (hdisj : min A.upper B.upper < max A.lower B.lower) (htol : 0 ≤ tol) :
    Interval.intersect A B = Interval.emptyInterval ∧
    Interval.emptyInterval.is_zero tol = true ∧
    Interval.eq tol Interval.emptyInterval Interval.zero = true ∧
    Interval.containsQ tol Interval.emptyInterval 0 = true := by
  refine ⟨?_, ?_, ?_, ?_⟩
  · simp only [Interval.intersect]
    rw [if_pos hdisj]
  · simp only [Interval.is_zero, Interval.emptyInterval, ERat.almosteq,
      Bool.and_eq_true, decide_eq_true_eq]
    norm_num
    exact htol
  · simp only [Interval.eq, Interval.emptyInterval, Interval.zero, ERat.almosteq,
      Bool.and_eq_true, decide_eq_true_eq]
    norm_num
    exact htol
  · simp [Interval.containsQ, Interval.emptyInterval, ERat.almostlte, ERat.ble]

/-- C10 (witness): `[0, 1] ∩ [2, 3]` with tolerance `1`. -/
theorem intersect_disjoint_empty_sentinel_witness :
    Interval.intersect ⟨ERat.fin 0, ERat.fin 1⟩ ⟨ERat.fin 2, ERat.fin 3⟩ =
      Interval.emptyInterval ∧
    Interval.emptyInterval.is_zero 1 = true ∧
    Interval.eq 1 Interval.emptyInterval Interval.zero = true ∧
    Interval.containsQ 1 Interval.emptyInterval 0 = true := by
  have hd : min (⟨ERat.fin 0, ERat.fin 1⟩ : Interval).upper
      (⟨ERat.fin 2, ERat.fin 3⟩ : Interval).upper <
      max (⟨ERat.fin 0, ERat.fin 1⟩ : Interval).lower
      (⟨ERat.fin 2, ERat.fin 3⟩ : Interval).lower := by
    norm_num [min_def, max_def, ERat.le_def, ERat.ble, lt_iff_le_not_le]
  exact intersect_disjoint_empty_sentinel 1 ⟨ERat.fin 0, ERat.fin 1⟩
    ⟨ERat.fin 2, ERat.fin 3⟩ hd (by norm_num)


/-- C5: the critical-point clamp in `_sin` never fires, because the membership
test `0.5 * pi in new` checks the *image* interval `new` (whose bounds are
sine values, at most `1`) rather than the reduced domain interval.  On
`[1, 2]`, whose reduced form crosses `π/2`, the code returns upper bound
`≈ sin(2) ≈ 0.9093`, not the extremum `1` the claim requires — the true range
of `sin` on `[1, 2]` reaches `1` at `π/2`, so the returned interval is also
unsound. -/
theorem sin_critical_point_clamp_never_fires :
    Interval.sinI defaultCfg ⟨ERat.fin 1, ERat.fin 2⟩ =
      ⟨ERat.fin (84147 / 100000), ERat.fin (90930 / 100000)⟩ ∧
    (1 : ℚ) ≤ 1 / 2 * defaultCfg.pi ∧ (1 / 2 : ℚ) * defaultCfg.pi ≤ 2 ∧
    (90930 / 100000 : ℚ) ≠ 1 := by
  refine ⟨?_, by norm_num [defaultCfg], by norm_num [defaultCfg], by norm_num⟩
  have hc : ¬ ((ERat.fin (1 : ℚ) = ERat.negInf) ∨ (ERat.fin (2 : ℚ) = ERat.posInf)) := by
    rintro (h | h) <;> exact ERat.noConfusion h
  have hsize : Interval.size ⟨ERat.fin 1, ERat.fin 2⟩ = ERat.fin 1 := by
    rw [Interval.size, if_neg hc]
    norm_num [ERat.sub, ERat.add, ERat.neg]
  have hG : ERat.almostgte defaultCfg.tol (Interval.size ⟨ERat.fin 1, ERat.fin 2⟩)
      (ERat.fin (2 * defaultCfg.pi)) = false := by
    rw [hsize]
    norm_num [ERat.almostgte, ERat.almostlte, ERat.almosteq, ERat.ble, defaultCfg, abs_le]
  have hfloor : ⌊(1 : ℚ) / (2 * defaultCfg.pi)⌋ = 0 := by
    rw [Int.floor_eq_zero_iff, Set.mem_Ico]
    constructor
    · norm_num [defaultCfg]
    · norm_num [defaultCfg]
  have hqmod : qmod 1 (2 * defaultCfg.pi) = 1 := by
    rw [qmod, hfloor]
    ring
  simp only [Interval.sinI, hG, Bool.false_eq_true, if_false, hqmod]
  norm_num [Interval.containsQ, ERat.almostlte, ERat.almosteq, ERat.ble, defaultCfg,
    min_def, max_def, abs_le]


/-- C7: the constant-exponent pow convexity case table, for any tolerance in
`[0, 1)`: exponent `0` (within tolerance) gives `Linear` for any base;
exponent `1` gives the base's own class; for a positive even integer exponent
`2m`, a `Linear` base gives `Convex`, a `Convex` base with nonnegative bound
gives `Convex`, and a `Concave` base with nonpositive bound gives `Convex`;
the unmatched combination exponent `3` with a `Convex` base whose bound is
not nonnegative gives `Unknown`. -/
theorem pow_constant_exponent_convexity_table (tol : ℚ) (h0 : 0 ≤ tol) (h1 : tol < 1) :
    (∀ (e : ℚ) (cvx : Convexity) (bound : Interval), almosteqQ tol e 0 = true →
      numericExponentPowConvexity tol e cvx bound = Convexity.Linear) ∧
    (∀ (cvx : Convexity) (bound : Interval),
      numericExponentPowConvexity tol 1 cvx bound = cvx) ∧
    (∀ (m : ℤ) (cvx : Convexity) (bound : Interval), 1 ≤ m →
      (cvx.is_linear = true →
        numericExponentPowConvexity tol ((2 * m : ℤ) : ℚ) cvx bound = Convexity.Convex) ∧
      (cvx = Convexity.Convex → bound.is_nonnegative tol = true →
        numericExponentPowConvexity tol ((2 * m : ℤ) : ℚ) cvx bound = Convexity.Convex) ∧
      (cvx = Convexity.Concave → bound.is_nonpositive tol = true →
        numericExponentPowConvexity tol ((2 * m : ℤ) : ℚ) cvx bound = Convexity.Convex)) ∧
    (∀ bound : Interval, bound.is_nonnegative tol = false →
      numericExponentPowConvexity tol 3 Convexity.Convex bound = Convexity.Unknown) := by
  refine ⟨?_, ?_, ?_, ?_⟩
  · intro e cvx bound h
    simp only [numericExponentPowConvexity]
    rw [if_pos h]
  · intro cvx bound
    have hA : almosteqQ tol 1 0 = false := by
      simp only [almosteqQ, decide_eq_false_iff_not]
      intro hcon
      rw [show |(1 : ℚ) - 0| = 1 by norm_num] at hcon
      linarith
    have hB : almosteqQ tol 1 1 = true := by
      simp only [almosteqQ, decide_eq_true_eq]
      rw [show |(1 : ℚ) - 1| = 0 by norm_num]
      exact h0
    simp only [numericExponentPowConvexity]
    rw [if_neg (by simp [hA]), if_pos hB]
  · intro m cvx bound hm
    have h2m : (2 : ℚ) ≤ ((2 * m : ℤ) : ℚ) := by
      push_cast
      have : (1 : ℚ) ≤ (m : ℚ) := by exact_mod_cast hm
      linarith
    have hA : almosteqQ tol ((2 * m : ℤ) : ℚ) 0 = false := by
      simp only [almosteqQ, decide_eq_false_iff_not]
      intro hcon
      rw [sub_zero, abs_of_nonneg (by linarith : (0 : ℚ) ≤ ((2 * m : ℤ) : ℚ))] at hcon
      linarith
    have hB : almosteqQ tol ((2 * m : ℤ) : ℚ) 1 = false := by
      simp only [almosteqQ, decide_eq_false_iff_not]
      intro hcon
      rw [abs_of_nonneg (by linarith : (0 : ℚ) ≤ ((2 * m : ℤ) : ℚ) - 1)] at hcon
      linarith
    have hInt : almosteqQ tol ((2 * m : ℤ) : ℚ) ((truncQ ((2 * m : ℤ) : ℚ) : ℤ) : ℚ) = true := by
      have ht : truncQ ((2 * m : ℤ) : ℚ) = 2 * m := by
        rw [truncQ, if_pos (by linarith : (0 : ℚ) ≤ ((2 * m : ℤ) : ℚ))]
        exact Int.floor_intCast _
      rw [ht]
      simp only [almosteqQ, decide_eq_true_eq, sub_self, abs_zero]
      exact h0
    have hEven : almosteqQ tol (qmod ((2 * m : ℤ) : ℚ) 2) 0 = true := by
      have hdiv : ((2 * m : ℤ) : ℚ) / 2 = ((m : ℤ) : ℚ) := by
        push_cast
        ring
      rw [qmod, hdiv, Int.floor_intCast]
      simp only [almosteqQ, decide_eq_true_eq]
      rw [show ((2 * m : ℤ) : ℚ) - 2 * ((m : ℤ) : ℚ) - 0 = 0 by push_cast; ring]
      rw [abs_zero]
      exact h0
    have hPos : decide ((0 : ℚ) < ((2 * m : ℤ) : ℚ)) = true := by
      simp only [decide_eq_true_eq]
      linarith
    refine ⟨?_, ?_, ?_⟩
    · intro hlin
      simp only [numericExponentPowConvexity]
      rw [if_neg (by rw [hA]; exact Bool.false_ne_true),
        if_neg (by rw [hB]; exact Bool.false_ne_true),
        if_pos (by rw [hInt, hEven, hPos]; rfl), if_pos hlin]
    · intro hcvx hbnd
      subst hcvx
      simp only [numericExponentPowConvexity]
      rw [if_neg (by rw [hA]; exact Bool.false_ne_true),
        if_neg (by rw [hB]; exact Bool.false_ne_true),
        if_pos (by rw [hInt, hEven, hPos]; rfl),
        if_neg (by simp [Convexity.is_linear]),
        if_pos (by rw [hbnd]; simp [Convexity.is_convex])]
    · intro hcvx hbnd
      subst hcvx
      simp only [numericExponentPowConvexity]
      rw [if_neg (by rw [hA]; exact Bool.false_ne_true),
        if_neg (by rw [hB]; exact Bool.false_ne_true),
        if_pos (by rw [hInt, hEven, hPos]; rfl),
        if_neg (by simp [Convexity.is_linear]),
        if_neg (by simp [Convexity.is_convex]),
        if_pos (by rw [hbnd]; simp [Convexity.is_concave])]
  · intro bound hbnd
    have hA : almosteqQ tol 3 0 = false := by
      simp only [almosteqQ, decide_eq_false_iff_not]
      intro hcon
      rw [show |(3 : ℚ) - 0| = 3 by norm_num] at hcon
      linarith
    have hB : almosteqQ tol 3 1 = false := by
      simp only [almosteqQ, decide_eq_false_iff_not]
      intro hcon
      rw [show |(3 : ℚ) - 1| = 2 by norm_num] at hcon
      linarith
    have hInt : almosteqQ tol 3 ((truncQ 3 : ℤ) : ℚ) = true := by
      have ht : truncQ (3 : ℚ) = 3 := by
        rw [truncQ, if_pos (by norm_num : (0 : ℚ) ≤ 3)]
        rw [show (3 : ℚ) = ((3 : ℤ) : ℚ) by norm_num]
        exact Int.floor_intCast _
      rw [ht]
      simp only [almosteqQ, decide_eq_true_eq]
      rw [show ((3 : ℤ) : ℚ) = 3 by norm_num, sub_self, abs_zero]
      exact h0
    have hEven : almosteqQ tol (qmod 3 2) 0 = false := by
      have hq : qmod (3 : ℚ) 2 = 1 := by
        rw [qmod, show ⌊(3 : ℚ) / 2⌋ = 1 by rw [Int.floor_eq_iff] <;> norm_num]
        norm_num
      rw [hq]
      simp only [almosteqQ, decide_eq_false_iff_not]
      intro hcon
      rw [show |(1 : ℚ) - 0| = 1 by norm_num] at hcon
      linarith
    simp only [numericExponentPowConvexity]
    rw [if_neg (by rw [hA]; exact Bool.false_ne_true),
      if_neg (by rw [hB]; exact Bool.false_ne_true),
      if_neg (by rw [hEven]; simp), if_neg (by rw [hEven]; simp),
      if_pos (by rw [hInt]; norm_num),
      if_neg (by rw [hB]; exact Bool.false_ne_true),
      if_neg (by rw [hbnd]; simp),
      if_neg (by simp [Convexity.is_concave])]

/-- C7 (witness): the pow convexity table at tolerance `2⁻⁴⁸` on `pow(x, 0)`
(any base), `pow(x, 1)` with a `Concave` base, `pow(x, 2)` with a `Linear`
base, and `pow(x, 3)` with a `Convex` base of negative bound. -/
theorem pow_constant_exponent_convexity_table_witness :
    numericExponentPowConvexity (1 / 2 ^ 48) 0 Convexity.Unknown Interval.zero =
      Convexity.Linear ∧
    numericExponentPowConvexity (1 / 2 ^ 48) 1 Convexity.Concave Interval.zero =
      Convexity.Concave ∧
    numericExponentPowConvexity (1 / 2 ^ 48) ((2 * (1 : ℤ) : ℤ) : ℚ) Convexity.Linear
      Interval.zero = Convexity.Convex ∧
    numericExponentPowConvexity (1 / 2 ^ 48) 3 Convexity.Convex
      ⟨ERat.fin (-2), ERat.fin (-1)⟩ = Convexity.Unknown := by
  have T := pow_constant_exponent_convexity_table (1 / 2 ^ 48) (by norm_num) (by norm_num)
  refine ⟨T.1 0 Convexity.Unknown Interval.zero (by norm_num [almosteqQ]),
    T.2.1 Convexity.Concave Interval.zero,
    (T.2.2.1 1 Convexity.Linear Interval.zero le_rfl).1 rfl,
    T.2.2.2 ⟨ERat.fin (-2), ERat.fin (-1)⟩ ?_⟩
  norm_num [Interval.is_nonnegative, ERat.almostgte, ERat.almostlte, ERat.almosteq,
    ERat.ble, abs_le]

end Suspect
